import Mathlib

/-!
Verification development for the geminot image-processing pipeline.

This file gives a shallow embedding of the numeric core of the repository:
the mask builders and separable Gaussian blur of
src/lib/services/inpainting-service.ts, the patch extractor, tensor codec,
output validator and compositor of src/workers/ai-inpainting.worker.ts, and
the multi-scale template-matching driver of src/workers/detection.worker.ts.

Modelling conventions:
- An ImageData pixel buffer (row-major RGBA Uint8ClampedArray with
  data[(y*width+x)*4+c]) is embedded as a total function data x y c over
  integer channel values; claims only inspect coordinates x < width,
  y < height, c < 4.
- JavaScript floating-point numbers are idealised as rationals (for codec,
  validator, compositor and detection arithmetic) or reals (for the Gaussian
  kernel, which uses Math.exp).  Math.round is floor (x + 1/2); assignment
  into a Uint8ClampedArray rounds half to even.
- Platform canvas operations (resize by drawImage, decode) are opaque in the
  source and are kept opaque here: they enter as explicit oracle parameters.
  The one canvas operation whose result the claims inspect, the fillStyle
  white ellipse of createFixedPositionMask, is modelled from the spec as a
  pure disk rasterisation (spec 4.2: a circular mask centered at the
  configured point; spec 9: abstract drawing-surface operations as pure
  functions).
-/

/-- JavaScript Math.round on a rational: floor (x + 1/2). -/
def jsRoundQ (q : ℚ) : ℤ := ⌊q + 1/2⌋

/-- JavaScript Math.round on a real: floor (x + 1/2). -/
noncomputable def jsRoundR (x : ℝ) : ℤ := ⌊x + 1/2⌋

/-- Storing a number into a Uint8ClampedArray slot: clamp to [0,255], then
round half to even. -/
def jsU8Clamp (q : ℚ) : ℤ :=
  let c := max 0 (min 255 q)
  let f := ⌊c⌋
  if c - f < 1/2 then f
  else if 1/2 < c - f then f + 1
  else if Even f then f else f + 1

/-- Clamped sampling index: Math.min (Math.max v 0) hi, as a natural number.
Translates the border handling of applyGaussianBlur. -/
def clampNat (v hi : ℤ) : ℕ := (min (max v 0) hi).toNat

/-- A decoded pixel buffer: width, height, and the RGBA channel values.
data x y c is the flat buffer entry at index (y*width+x)*4+c. -/
structure ImageData where
  width : ℕ
  height : ℕ
  data : ℕ → ℕ → ℕ → ℤ

/-- Constant-colour image, used for concrete test inputs. -/
def constImage (w h : ℕ) (v : ℤ) : ImageData := ⟨w, h, fun _ _ _ => v⟩

/-! ## Configuration constants (src/lib/constants.ts) -/

/-- DETECTION_CONFIG.ROI_PERCENT = 0.15. -/
def ROI_PERCENT : ℚ := 15/100

/-- DETECTION_CONFIG.POSSIBLE_THRESHOLD = 0.5. -/
def POSSIBLE_THRESHOLD : ℚ := 1/2

/-- DETECTION_CONFIG.SCALES = [0.5, 0.75, 1.0, 1.25, 1.5]. -/
def SCALES : List ℚ := [1/2, 3/4, 1, 5/4, 3/2]

/-- INPAINTING_CONFIG.MASK_DILATION = 10. -/
def MASK_DILATION : ℤ := 10

/-- INPAINTING_CONFIG.PATCH_PADDING = 100. -/
def PATCH_PADDING : ℤ := 100

/-- INPAINTING_CONFIG.MASK_FEATHER_RADIUS = 40. -/
def MASK_FEATHER_RADIUS : ℕ := 40

/-- INPAINTING_CONFIG.INPUT_SIZE = 512. -/
def INPUT_SIZE : ℕ := 512

/-- INPAINTING_CONFIG.MIN_OUTPUT_VARIANCE = 500. -/
def MIN_OUTPUT_VARIANCE : ℚ := 500

/-! ## Gaussian kernel and separable blur
(InpaintingService.createGaussianKernel / applyGaussianBlur) -/

/-- The unnormalised kernel values exp (-(x*x) / (2*sigma*sigma)) with
x = i - radius and sigma = radius/3, for i < 2*radius+1. -/
noncomputable def gaussKernelRaw (radius : ℕ) : List ℝ :=
  (List.range (2 * radius + 1)).map
    (fun (i : ℕ) => Real.exp (-(((i : ℝ) - radius) * ((i : ℝ) - radius)) /
      (2 * ((radius : ℝ) / 3) * ((radius : ℝ) / 3))))

/-- InpaintingService.createGaussianKernel: the raw Gaussian values divided
by their sum. -/
noncomputable def createGaussianKernel (radius : ℕ) : List ℝ :=
  (gaussKernelRaw radius).map (fun v => v / (gaussKernelRaw radius).sum)

/-- One clamped 1-D convolution output value: the inner loop shared by the
horizontal and the vertical pass of InpaintingService.applyGaussianBlur.
The source iterates kx from -halfKernel to halfKernel sampling
min (max (x+kx) 0) (size-1) and dividing by the re-accumulated weight sum;
here k = kx + halfKernel runs over 0..2*radius. -/
noncomputable def blurLineValue (kernel : List ℝ) (radius size : ℕ)
    (line : ℕ → ℤ) (x : ℕ) : ℤ :=
  jsRoundR
    ((∑ k ∈ Finset.range (2 * radius + 1),
        kernel.getD k 0 *
          (line (clampNat ((x : ℤ) + (k : ℤ) - (radius : ℤ)) ((size : ℤ) - 1)) : ℝ)) /
      (∑ k ∈ Finset.range (2 * radius + 1), kernel.getD k 0))

/-- InpaintingService.applyGaussianBlur: horizontal pass over the red channel
into a temporary buffer, then vertical pass over the temporary buffer; each
output pixel stores the value in R, G and B and 255 in alpha. -/
noncomputable def applyGaussianBlur (img : ImageData) (radius : ℕ) : ImageData :=
  let kernel := createGaussianKernel radius
  let temp : ℕ → ℕ → ℤ := fun x y =>
    blurLineValue kernel radius img.width (fun sx => img.data sx y 0) x
  { width := img.width
    height := img.height
    data := fun x y c =>
      if c = 3 then 255
      else blurLineValue kernel radius img.height (fun sy => temp x sy) y }

/-! ## Mask builders (InpaintingService.createMask /
createFixedPositionMask) -/

/-- The mask-dilation step of InpaintingService.createMask: expand the
rectangle by MASK_DILATION on all sides, clamped to the image bounds. -/
def dilateMaskRect (width height maskX maskY maskWidth maskHeight : ℤ) :
    ℤ × ℤ × ℤ × ℤ :=
  let maskX' := max 0 (maskX - MASK_DILATION)
  let maskY' := max 0 (maskY - MASK_DILATION)
  let maskWidth' := min (width - maskX') (maskWidth + MASK_DILATION * 2)
  let maskHeight' := min (height - maskY') (maskHeight + MASK_DILATION * 2)
  (maskX', maskY', maskWidth', maskHeight')

/-- The pre-blur rectangle painted by InpaintingService.createMask: position
from the detection (ROI offset plus detected location, fixed 100x100 size
estimate) or the bottom-right default, then dilated. -/
def createMaskRect (width height : ℕ) (detection : Option (ℤ × ℤ)) :
    ℤ × ℤ × ℤ × ℤ :=
  match detection with
  | some (dx, dy) =>
      let roiWidth := ⌊(width : ℚ) * ROI_PERCENT⌋
      let roiHeight := ⌊(height : ℚ) * ROI_PERCENT⌋
      let roiX := (width : ℤ) - roiWidth
      let roiY := (height : ℤ) - roiHeight
      dilateMaskRect width height (roiX + dx) (roiY + dy) 100 100
  | none =>
      let estimatedSize := ⌊(min (width : ℚ) (height : ℚ)) * ROI_PERCENT⌋
      let margin : ℤ := 10
      dilateMaskRect width height ((width : ℤ) - estimatedSize - margin)
        ((height : ℤ) - estimatedSize - margin) estimatedSize estimatedSize

/-- White-on-black rasterisation of a rectangle (canvas fillRect): 255 inside
the rectangle, 0 outside, alpha always 255. -/
def rectMaskImage (w h : ℕ) (rect : ℤ × ℤ × ℤ × ℤ) : ImageData :=
  { width := w
    height := h
    data := fun x y c =>
      if c = 3 then 255
      else if rect.1 ≤ (x : ℤ) ∧ (x : ℤ) < rect.1 + rect.2.2.1 ∧
              rect.2.1 ≤ (y : ℤ) ∧ (y : ℤ) < rect.2.1 + rect.2.2.2
      then 255 else 0 }

/-- InpaintingService.createMask: paint the (dilated) badge rectangle in
white on black, then feather with the separable Gaussian blur. -/
noncomputable def createMask (w h : ℕ) (detection : Option (ℤ × ℤ)) : ImageData :=
  applyGaussianBlur (rectMaskImage w h (createMaskRect w h detection))
    MASK_FEATHER_RADIUS

/-- The fixed-position star geometry of createFixedPositionMask: center
(width - 120, height - 120), radius 80 + MASK_DILATION = 90. -/
def fixedMaskCenterX (w : ℕ) : ℤ := (w : ℤ) - 120

/-- Vertical center of the fixed-position mask. -/
def fixedMaskCenterY (h : ℕ) : ℤ := (h : ℤ) - 120

/-- starRadius + dilation of createFixedPositionMask. -/
def fixedMaskRadius : ℤ := 80 + MASK_DILATION

/-- Modelled from the spec: canvas ellipse rasterisation.  The white ellipse
filled by createFixedPositionMask (maskCtx.ellipse with equal radii) is
modelled as the disk of radius fixedMaskRadius around the star center: a
pixel is white exactly when its coordinate lies inside the disk. -/
def fixedEllipseImage (w h : ℕ) : ImageData :=
  { width := w
    height := h
    data := fun x y c =>
      if c = 3 then 255
      else if ((x : ℤ) - fixedMaskCenterX w) ^ 2 +
              ((y : ℤ) - fixedMaskCenterY h) ^ 2 ≤ fixedMaskRadius ^ 2
      then 255 else 0 }

/-- InpaintingService.createFixedPositionMask: white disk over the star
position, feathered with the separable Gaussian blur. -/
noncomputable def createFixedPositionMask (w h : ℕ) : ImageData :=
  applyGaussianBlur (fixedEllipseImage w h) MASK_FEATHER_RADIUS

/-! ## Patch extraction (AIInpaintingWorker.extractWatermarkPatch) -/

/-- State of the bounding-box scan: minX, minY, maxX, maxY. -/
structure BBox where
  minX : ℤ
  minY : ℤ
  maxX : ℤ
  maxY : ℤ

/-- One step of the bounding-box scan: extend the box when the mask's red
channel at the pixel exceeds 128. -/
def bboxStep (mask : ImageData) (st : BBox) (p : ℕ × ℕ) : BBox :=
  if 128 < mask.data p.1 p.2 0 then
    ⟨min st.minX p.1, min st.minY p.2, max st.maxX p.1, max st.maxY p.2⟩
  else st

/-- Scan order of extractWatermarkPatch: y outer, x inner. -/
def scanPairs (w h : ℕ) : List (ℕ × ℕ) :=
  (List.range h).flatMap (fun y => (List.range w).map (fun x => (x, y)))

/-- The mask bounding box of extractWatermarkPatch, initialised to
minX = width, minY = height, maxX = 0, maxY = 0. -/
def maskBBox (w h : ℕ) (mask : ImageData) : BBox :=
  (scanPairs w h).foldl (bboxStep mask) ⟨w, h, 0, 0⟩

/-- The patch bundle: cropped image, cropped mask, and top-left offset. -/
structure PatchInfo where
  patchImage : ImageData
  patchMask : ImageData
  offsetX : ℤ
  offsetY : ℤ

/-- Crop a w x h window at offset (ox, oy) out of an image (the canvas
drawImage crop of extractWatermarkPatch at integer coordinates). -/
def cropImage (img : ImageData) (ox oy : ℤ) (w h : ℕ) : ImageData :=
  ⟨w, h, fun x y c => img.data (ox + x).toNat (oy + y).toNat c⟩

/-- AIInpaintingWorker.extractWatermarkPatch: bounding box of mask red
values above 128, expanded by PATCH_PADDING and clamped to the image. -/
def extractWatermarkPatch (imageData maskData : ImageData) : PatchInfo :=
  let w := imageData.width
  let h := imageData.height
  let bb := maskBBox w h maskData
  let patchX := max 0 (bb.minX - PATCH_PADDING)
  let patchY := max 0 (bb.minY - PATCH_PADDING)
  let patchWidth := min ((w : ℤ) - patchX) (bb.maxX - bb.minX + PATCH_PADDING * 2)
  let patchHeight := min ((h : ℤ) - patchY) (bb.maxY - bb.minY + PATCH_PADDING * 2)
  { patchImage := cropImage imageData patchX patchY patchWidth.toNat patchHeight.toNat
    patchMask := cropImage maskData patchX patchY patchWidth.toNat patchHeight.toNat
    offsetX := patchX
    offsetY := patchY }

/-! ## Tensor codec (AIInpaintingWorker.preprocessInputs /
postprocessPatchOutput) -/

/-- A resize oracle stands in for the canvas drawImage bilinear resampling
(spec 9: abstract resample(buffer, w, h) as an opaque pure function). -/
def ResizeOracle : Type := ImageData → ℕ → ℕ → ImageData

/-- AIInpaintingWorker.preprocessInputs: resize image and mask to
INPUT_SIZE, normalise to [0,1], zero out the image where the mask is set
(masked image = original * (1 - mask)), and lay the channels out
channel-major.  Returns (image tensor, mask tensor, original dimensions). -/
def preprocessInputs (resize : ResizeOracle) (imageData maskData : ImageData) :
    (ℕ → ℚ) × (ℕ → ℚ) × ℕ × ℕ :=
  let n := INPUT_SIZE
  let resizedImage := resize imageData n n
  let resizedMask := resize maskData n n
  let maskValue : ℕ → ℚ := fun i => (resizedMask.data (i % n) (i / n) 0 : ℚ) / 255
  let imageArray : ℕ → ℚ := fun t =>
    let c := t / (n * n)
    let i := t % (n * n)
    ((resizedImage.data (i % n) (i / n) c : ℚ) / 255) * (1 - maskValue i)
  (imageArray, maskValue, imageData.width, imageData.height)

/-- Minimum of data 0 .. data (n-1), the min-scan of postprocessPatchOutput. -/
def tensorMin (data : ℕ → ℚ) : ℕ → ℚ
  | 0 => 0
  | 1 => data 0
  | n + 1 => min (tensorMin data n) (data n)

/-- Maximum of data 0 .. data (n-1), the max-scan of postprocessPatchOutput. -/
def tensorMax (data : ℕ → ℚ) : ℕ → ℚ
  | 0 => 0
  | 1 => data 0
  | n + 1 => max (tensorMax data n) (data n)

/-- The adaptive range normalisation of postprocessPatchOutput, branching on
the detected global minimum and maximum. -/
def normalizeOutput (mn mx v : ℚ) : ℚ :=
  if mx = mn then 128
  else if -10 ≤ mn ∧ mx ≤ 265 ∧ 100 < mx - mn then max 0 (min 255 v)
  else if -1/10 ≤ mn ∧ mx ≤ 11/10 then max 0 (min 255 (v * 255))
  else if -11/10 ≤ mn ∧ mx ≤ 11/10 then max 0 (min 255 ((v + 1) / 2 * 255))
  else (v - mn) / (mx - mn) * 255

/-- The [1,3,H,W] output tensor decoded to RGBA at model resolution: each
channel value is clamped to [0,255] after normalisation and written to a
Uint8ClampedArray pixel; alpha is 255. -/
def decodeModelOutput (H W : ℕ) (data : ℕ → ℚ) : ImageData :=
  let len := 3 * (H * W)
  let mn := tensorMin data len
  let mx := tensorMax data len
  { width := W
    height := H
    data := fun x y c =>
      if c = 3 then 255
      else jsU8Clamp (max 0 (min 255
        (normalizeOutput mn mx (data (c * (H * W) + (y * W + x)))))) }

/-- AIInpaintingWorker.postprocessPatchOutput: decode the tensor at model
resolution, then resize back to the original patch dimensions. -/
def postprocessPatchOutput (resize : ResizeOracle) (H W : ℕ) (data : ℕ → ℚ)
    (originalWidth originalHeight : ℕ) : ImageData :=
  resize (decodeModelOutput H W data) originalWidth originalHeight

/-! ## Output validator (AIInpaintingWorker.validateInpaintingResult) -/

/-- Per-channel sum over all pixels, in the linear pixel order of the
validator loop (pixel i is (i mod width, i div width)). -/
def channelSum (img : ImageData) (c : ℕ) : ℚ :=
  ∑ i ∈ Finset.range (img.width * img.height),
    (img.data (i % img.width) (i / img.width) c : ℚ)

/-- Per-channel mean of the validator. -/
def channelMean (img : ImageData) (c : ℕ) : ℚ :=
  channelSum img c / (img.width * img.height : ℕ)

/-- Per-channel accumulated squared deviation of the validator. -/
def channelSqDev (img : ImageData) (c : ℕ) : ℚ :=
  ∑ i ∈ Finset.range (img.width * img.height),
    ((img.data (i % img.width) (i / img.width) c : ℚ) - channelMean img c) ^ 2

/-- AIInpaintingWorker.validateInpaintingResult: per-channel population
variance, summed over R, G, B, compared against the minimum variance. -/
def validateInpaintingResult (img : ImageData) (minVariance : ℚ) : Bool :=
  let totalPixels : ℚ := (img.width * img.height : ℕ)
  let totalVariance := channelSqDev img 0 / totalPixels +
    channelSqDev img 1 / totalPixels + channelSqDev img 2 / totalPixels
  minVariance ≤ totalVariance

/-! ## Compositor (AIInpaintingWorker.compositePatchToImage) -/

/-- The coverage test of the compositing loop: pixel (x, y) of the full
image receives a blended value when it falls inside the patch placed at
(offsetX, offsetY) and inside the image bounds (the loop skips
out-of-bounds writes). -/
def patchCovers (patch : ImageData) (offsetX offsetY : ℤ) (w h x y : ℕ) : Prop :=
  offsetX ≤ (x : ℤ) ∧ (x : ℤ) < offsetX + patch.width ∧
  offsetY ≤ (y : ℤ) ∧ (y : ℤ) < offsetY + patch.height ∧ x < w ∧ y < h

instance (patch : ImageData) (offsetX offsetY : ℤ) (w h x y : ℕ) :
    Decidable (patchCovers patch offsetX offsetY w h x y) := by
  unfold patchCovers; infer_instance

/-- AIInpaintingWorker.compositePatchToImage: start from a copy of the
original, then alpha-blend the inpainted patch over it using the patch
mask's red channel as feathered alpha; alpha is forced to 255 on blended
pixels. -/
def compositePatchToImage (originalImage inpaintedPatch patchMask : ImageData)
    (offsetX offsetY : ℤ) : ImageData :=
  { width := originalImage.width
    height := originalImage.height
    data := fun x y c =>
      if patchCovers inpaintedPatch offsetX offsetY
          originalImage.width originalImage.height x y then
        let px := ((x : ℤ) - offsetX).toNat
        let py := ((y : ℤ) - offsetY).toNat
        let maskValue : ℚ := (patchMask.data px py 0 : ℚ) / 255
        if c = 3 then 255
        else jsRoundQ ((originalImage.data x y c : ℚ) * (1 - maskValue) +
          (inpaintedPatch.data px py c : ℚ) * maskValue)
      else originalImage.data x y c }

/-! ## The worker inpaint pipeline (AIInpaintingWorker.inpaint) -/

/-- The inference-engine oracle: from named input tensors to the output tensor
(height, width, data) of shape [1,3,H,W]. -/
def RunOracle : Type := (ℕ → ℚ) → (ℕ → ℚ) → ℕ × ℕ × (ℕ → ℚ)

/-- The image/mask pair handed to the tensor codec and the inference engine
by AIInpaintingWorker.inpaint: the extracted patch pair. -/
def inferenceInput (imageData maskData : ImageData) : ImageData × ImageData :=
  let patchInfo := extractWatermarkPatch imageData maskData
  (patchInfo.patchImage, patchInfo.patchMask)

/-- The inpainted patch produced inside AIInpaintingWorker.inpaint:
preprocess, run, postprocess back to patch dimensions. -/
def inpaintedPatchOf (run : RunOracle) (resize : ResizeOracle)
    (imageData maskData : ImageData) : ImageData :=
  let patchInfo := extractWatermarkPatch imageData maskData
  let pre := preprocessInputs resize patchInfo.patchImage patchInfo.patchMask
  let out := run pre.1 pre.2.1
  postprocessPatchOutput resize out.1 out.2.1 out.2.2 pre.2.2.1 pre.2.2.2

/-- AIInpaintingWorker.inpaint: extract the patch, run inference through the
tensor codec, validate the output quality (log-only), and composite the
patch back.  Returns the validator verdict together with the image the call
returns. -/
def inpaint (run : RunOracle) (resize : ResizeOracle)
    (imageData maskData : ImageData) (minVariance : ℚ) : Bool × ImageData :=
  let patchInfo := extractWatermarkPatch imageData maskData
  let inpaintedPatch := inpaintedPatchOf run resize imageData maskData
  let valid := validateInpaintingResult inpaintedPatch minVariance
  let resultImageData := compositePatchToImage imageData inpaintedPatch
    patchInfo.patchMask patchInfo.offsetX patchInfo.offsetY
  (valid, resultImageData)

/-! ## Badge detection (BadgeDetectionWorker.detectBadge / matchAtScale) -/

/-- A detection result in full-image coordinates. -/
structure DetectionResult where
  x : ℤ
  y : ℤ
  width : ℤ
  height : ℤ
  confidence : ℚ

/-- A match candidate in ROI-local coordinates, as produced by
matchAtScale. -/
structure MatchCandidate where
  x : ℕ
  y : ℕ
  width : ℤ
  height : ℤ
  confidence : ℚ

/-- The template-matching oracle: for each scale, the global maximum value
and location (minMaxLoc of the cv.matchTemplate score surface between the
ROI luminance and the template resized to that scale). -/
def MatchOracle : Type := ℚ → ℚ × ℕ × ℕ

/-- BadgeDetectionWorker.matchAtScale: resize the template by the scale
(Math.round of cols/rows times scale); skip the scale when the resized
template exceeds the ROI in either axis; otherwise report the score
surface's maximum and its location. -/
def matchAtScale (templateCols templateRows : ℕ) (roiWidth roiHeight : ℤ)
    (m : MatchOracle) (scale : ℚ) : Option MatchCandidate :=
  let scaledWidth := jsRoundQ ((templateCols : ℚ) * scale)
  let scaledHeight := jsRoundQ ((templateRows : ℚ) * scale)
  if roiWidth < scaledWidth ∨ roiHeight < scaledHeight then none
  else some ⟨(m scale).2.1, (m scale).2.2, scaledWidth, scaledHeight, (m scale).1⟩

/-- The best-candidate tracking step of detectBadge: keep a match only when
its confidence strictly exceeds the best so far, translating ROI-local
coordinates into full-image coordinates. -/
def detectStep (roiX roiY : ℤ) (st : Option DetectionResult × ℚ)
    (mc : Option MatchCandidate) : Option DetectionResult × ℚ :=
  match mc with
  | some cand =>
      if st.2 < cand.confidence then
        (some ⟨roiX + cand.x, roiY + cand.y, cand.width, cand.height,
          cand.confidence⟩, cand.confidence)
      else st
  | none => st

/-- The bottom-right ROI extent along one axis:
Math.floor (length * ROI_PERCENT). -/
def detROIWidth (n : ℕ) : ℤ := ⌊(n : ℚ) * ROI_PERCENT⌋

/-- The bottom-right ROI offset along one axis: length minus the ROI
extent. -/
def detROIX (n : ℕ) : ℤ := (n : ℤ) - detROIWidth n

/-- The best-candidate tracking loop of detectBadge over a list of scales. -/
def detectFold (templateCols templateRows : ℕ) (roiW roiH roiX roiY : ℤ)
    (m : MatchOracle) (l : List ℚ) (st : Option DetectionResult × ℚ) :
    Option DetectionResult × ℚ :=
  l.foldl (fun st s => detectStep roiX roiY st
    (matchAtScale templateCols templateRows roiW roiH m s)) st

/-- BadgeDetectionWorker.detectBadge: compute the bottom-right ROI, try all
configured scales tracking the best confidence (starting at 0), and return
the best match only when its confidence reaches POSSIBLE_THRESHOLD. -/
def detectBadge (imageWidth imageHeight templateCols templateRows : ℕ)
    (m : MatchOracle) : Option DetectionResult :=
  let final := detectFold templateCols templateRows
    (detROIWidth imageWidth) (detROIWidth imageHeight)
    (detROIX imageWidth) (detROIX imageHeight) m SCALES (none, 0)
  match final.1 with
  | some best => if POSSIBLE_THRESHOLD ≤ best.confidence then some best else none
  | none => none

/-- A scale the detector does not skip: the resized template fits in the ROI
in both axes. -/
def scaleActive (templateCols templateRows : ℕ) (roiWidth roiHeight : ℤ)
    (s : ℚ) : Prop :=
  jsRoundQ ((templateCols : ℚ) * s) ≤ roiWidth ∧
    jsRoundQ ((templateRows : ℚ) * s) ≤ roiHeight

instance (templateCols templateRows : ℕ) (roiWidth roiHeight : ℤ) (s : ℚ) :
    Decidable (scaleActive templateCols templateRows roiWidth roiHeight s) := by
  unfold scaleActive
  infer_instance

/-- The scales the detector does not skip. -/
def activeScales (templateCols templateRows : ℕ) (roiWidth roiHeight : ℤ) :
    List ℚ :=
  SCALES.filter (fun s =>
    decide (scaleActive templateCols templateRows roiWidth roiHeight s))

/-! ## Spec-side definitions used to compare against the code -/

/-- Per-channel mean as the spec words it (sum over pixel coordinates
divided by the pixel count). -/
def specChannelMean (img : ImageData) (c : ℕ) : ℚ :=
  (∑ x ∈ Finset.range img.width, ∑ y ∈ Finset.range img.height,
    (img.data x y c : ℚ)) / (img.width * img.height : ℕ)

/-- Per-channel population variance as the spec words it:
sum of squared deviations from the mean, divided by the pixel count. -/
def specPopVariance (img : ImageData) (c : ℕ) : ℚ :=
  (∑ x ∈ Finset.range img.width, ∑ y ∈ Finset.range img.height,
    ((img.data x y c : ℚ) - specChannelMean img c) ^ 2) / (img.width * img.height : ℕ)

/-- The four-regime output map exactly as claim C4 states it: already
≈[0,255] passes through with clamping, [0,1] is scaled by 255, [-1,1] is
mapped by (v+1)/2*255, any other range is min-max rescaled.  (The tolerance
bounds are the source's; the claim names no others.) -/
def claimedNormalize (mn mx v : ℚ) : ℚ :=
  if -10 ≤ mn ∧ mx ≤ 265 then max 0 (min 255 v)
  else if -1/10 ≤ mn ∧ mx ≤ 11/10 then max 0 (min 255 (v * 255))
  else if -11/10 ≤ mn ∧ mx ≤ 11/10 then max 0 (min 255 ((v + 1) / 2 * 255))
  else (v - mn) / (mx - mn) * 255

/-- A 1x1 image whose RGB is 9 and whose alpha is 128 (not opaque): concrete
input for the compositor round-trip claim. -/
def alphaTestImage : ImageData := ⟨1, 1, fun _ _ c => if c = 3 then 128 else 9⟩

/-- A 1x1 all-255 mask (red channel 255 means fully inpaint). -/
def fullMask1x1 : ImageData := constImage 1 1 255

/-! # Theorems -/

/-- Math.round of an integer-valued rational is that integer. -/
theorem jsRoundQ_intCast (n : ℤ) : jsRoundQ (n : ℚ) = n := by
  unfold jsRoundQ
  rw [add_comm, Int.floor_add_int]
  norm_num

/-- Linear pixel scan equals the coordinate double sum. -/
theorem sum_linear_pixels (w h : ℕ) (f : ℕ → ℕ → ℚ) :
    ∑ i ∈ Finset.range (w * h), f (i % w) (i / w) =
      ∑ x ∈ Finset.range w, ∑ y ∈ Finset.range h, f x y := by
  rcases Nat.eq_zero_or_pos w with hw | hw
  · subst hw; simp
  rw [← Finset.sum_product']
  apply Finset.sum_nbij' (i := fun i => (i % w, i / w)) (j := fun p => p.2 * w + p.1)
  · intro i hi
    simp only [Finset.mem_range] at hi
    simp only [Finset.mem_product, Finset.mem_range]
    exact ⟨Nat.mod_lt i hw, Nat.div_lt_of_lt_mul (by omega)⟩
  · intro p hp
    simp only [Finset.mem_product, Finset.mem_range] at hp
    simp only [Finset.mem_range]
    calc p.2 * w + p.1 < p.2 * w + w := by omega
      _ = (p.2 + 1) * w := by ring
      _ ≤ h * w := Nat.mul_le_mul_right w hp.2
      _ = w * h := Nat.mul_comm h w
  · intro i _
    simp only
    exact Nat.div_add_mod' i w
  · intro p hp
    simp only [Finset.mem_product, Finset.mem_range] at hp
    have h1 : (p.2 * w + p.1) % w = p.1 := by
      rw [Nat.mul_add_mod']
      exact Nat.mod_eq_of_lt hp.1
    have h2 : (p.2 * w + p.1) / w = p.2 := by
      rw [mul_comm p.2 w, Nat.mul_add_div hw]
      simp [Nat.div_eq_of_lt hp.1]
    simp [h1, h2]
  · intro i _
    rfl

/-- C7: for a painted rectangle from [100,100] to [200,200] with dilation
10, the dilated pre-blur box of createMask is exactly [90,90] to [210,210]
whenever the image is large enough, and clamped to the image bounds
otherwise: its corner is (90, 90) and its far corner is
(min width 210, min height 210). -/
theorem C7_dilated_box (W H : ℤ) (hW : 100 ≤ W) (hH : 100 ≤ H) :
    (dilateMaskRect W H 100 100 100 100).1 = 90 ∧
    (dilateMaskRect W H 100 100 100 100).2.1 = 90 ∧
    (dilateMaskRect W H 100 100 100 100).1 +
      (dilateMaskRect W H 100 100 100 100).2.2.1 = min W 210 ∧
    (dilateMaskRect W H 100 100 100 100).2.1 +
      (dilateMaskRect W H 100 100 100 100).2.2.2 = min H 210 := by
  unfold dilateMaskRect MASK_DILATION
  simp only
  omega

/-- C7 witness: a 300x300 image leaves the dilated box unclamped at
[90,90]..[210,210]. -/
theorem C7_witness :
    (dilateMaskRect 300 300 100 100 100 100).1 = 90 ∧
    (dilateMaskRect 300 300 100 100 100 100).2.1 = 90 ∧
    (dilateMaskRect 300 300 100 100 100 100).1 +
      (dilateMaskRect 300 300 100 100 100 100).2.2.1 = min 300 210 ∧
    (dilateMaskRect 300 300 100 100 100 100).2.1 +
      (dilateMaskRect 300 300 100 100 100 100).2.2.2 = min 300 210 :=
  C7_dilated_box 300 300 (by norm_num) (by norm_num)

/-- The loop-accumulated channel mean equals the spec's coordinate mean. -/
theorem channelMean_eq_spec (img : ImageData) (c : ℕ) :
    channelMean img c = specChannelMean img c := by
  unfold channelMean specChannelMean channelSum
  rw [sum_linear_pixels img.width img.height (fun x y => (img.data x y c : ℚ))]

/-- The loop-accumulated squared deviations equal the spec's coordinate
double sum. -/
theorem channelSqDev_eq_spec (img : ImageData) (c : ℕ) :
    channelSqDev img c =
      ∑ x ∈ Finset.range img.width, ∑ y ∈ Finset.range img.height,
        ((img.data x y c : ℚ) - specChannelMean img c) ^ 2 := by
  unfold channelSqDev
  rw [channelMean_eq_spec]
  rw [sum_linear_pixels img.width img.height
    (fun x y => ((img.data x y c : ℚ) - specChannelMean img c) ^ 2)]

/-- C8: the output validator accepts exactly when the sum over R, G, B of
the per-channel population variances reaches the configured minimum; a
buffer whose pixels are all identical is rejected for every positive
threshold. -/
theorem C8_validator (img : ImageData) (minVariance : ℚ) :
    (validateInpaintingResult img minVariance = true ↔
      minVariance ≤ specPopVariance img 0 + specPopVariance img 1 +
        specPopVariance img 2) ∧
    (∀ v : ℤ, (∀ x < img.width, ∀ y < img.height, ∀ c < 3, img.data x y c = v) →
      0 < minVariance → validateInpaintingResult img minVariance = false) := by
  constructor
  · unfold validateInpaintingResult specPopVariance
    simp only [decide_eq_true_eq]
    rw [channelSqDev_eq_spec img 0, channelSqDev_eq_spec img 1,
      channelSqDev_eq_spec img 2]
  · intro v hv hpos
    have hdev : ∀ c < 3, channelSqDev img c = 0 := by
      intro c hc
      unfold channelSqDev
      rcases Nat.eq_zero_or_pos (img.width * img.height) with hN | hN
      · rw [hN]; simp
      have hwpos : 0 < img.width := by
        rcases Nat.eq_zero_or_pos img.width with h0 | h0
        · rw [h0] at hN; omega
        · exact h0
      have hval : ∀ i ∈ Finset.range (img.width * img.height),
          img.data (i % img.width) (i / img.width) c = v := by
        intro i hi
        simp only [Finset.mem_range] at hi
        exact hv _ (Nat.mod_lt i hwpos) _ (Nat.div_lt_of_lt_mul (by omega)) c hc
      have hmean : channelMean img c = v := by
        unfold channelMean channelSum
        rw [Finset.sum_congr rfl (fun i hi => by rw [hval i hi])]
        rw [Finset.sum_const, Finset.card_range]
        rw [nsmul_eq_mul, mul_comm]
        rw [mul_div_assoc, div_self (by exact_mod_cast hN.ne'), mul_one]
      apply Finset.sum_eq_zero
      intro i hi
      rw [hval i hi, hmean]
      ring
    unfold validateInpaintingResult
    simp only [decide_eq_false_iff_not, not_le]
    rw [hdev 0 (by norm_num), hdev 1 (by norm_num), hdev 2 (by norm_num)]
    simpa using hpos

/-- C8 witness: a 2x2 buffer with every channel equal to 7 is rejected at
threshold 1. -/
theorem C8_witness :
    validateInpaintingResult (constImage 2 2 7) 1 = false :=
  (C8_validator (constImage 2 2 7) 1).2 7 (by decide) (by norm_num)

/-- C9: the validator's verdict has no effect on the image returned by
AIInpaintingWorker.inpaint: the returned image is the composited patch for
every variance threshold, and only the logged verdict depends on the
threshold. -/
theorem C9_validation_nonfatal (run : RunOracle) (resize : ResizeOracle)
    (imageData maskData : ImageData) (t1 t2 : ℚ) :
    (inpaint run resize imageData maskData t1).2 =
      (inpaint run resize imageData maskData t2).2 ∧
    (inpaint run resize imageData maskData t1).2 =
      compositePatchToImage imageData
        (inpaintedPatchOf run resize imageData maskData)
        (extractWatermarkPatch imageData maskData).patchMask
        (extractWatermarkPatch imageData maskData).offsetX
        (extractWatermarkPatch imageData maskData).offsetY ∧
    (inpaint run resize imageData maskData t1).1 =
      validateInpaintingResult (inpaintedPatchOf run resize imageData maskData) t1 :=
  ⟨rfl, rfl, rfl⟩

/-- Minimum scan of a constant tensor. -/
theorem tensorMin_const (data : ℕ → ℚ) (v : ℚ) (n : ℕ) (hn : 0 < n)
    (hconst : ∀ i < n, data i = v) : tensorMin data n = v := by
  induction n with
  | zero => omega
  | succ m ih =>
    rcases Nat.eq_zero_or_pos m with hm | hm
    · subst hm
      unfold tensorMin
      exact hconst 0 (by omega)
    · have hm1 : m = (m - 1) + 1 := by omega
      rw [hm1]
      show min (tensorMin data ((m - 1) + 1)) (data ((m - 1) + 1)) = v
      rw [← hm1]
      rw [ih hm (fun i hi => hconst i (by omega)), hconst m (by omega)]
      exact min_self v

/-- Maximum scan of a constant tensor. -/
theorem tensorMax_const (data : ℕ → ℚ) (v : ℚ) (n : ℕ) (hn : 0 < n)
    (hconst : ∀ i < n, data i = v) : tensorMax data n = v := by
  induction n with
  | zero => omega
  | succ m ih =>
    rcases Nat.eq_zero_or_pos m with hm | hm
    · subst hm
      unfold tensorMax
      exact hconst 0 (by omega)
    · have hm1 : m = (m - 1) + 1 := by omega
      rw [hm1]
      show max (tensorMax data ((m - 1) + 1)) (data ((m - 1) + 1)) = v
      rw [← hm1]
      rw [ih hm (fun i hi => hconst i (by omega)), hconst m (by omega)]
      exact max_self v

/-- Storing an in-range integer into a Uint8ClampedArray keeps it. -/
theorem jsU8Clamp_intCast (n : ℤ) (h0 : 0 ≤ n) (h255 : n ≤ 255) :
    jsU8Clamp (n : ℚ) = n := by
  unfold jsU8Clamp
  have h1 : min (255 : ℚ) (n : ℚ) = (n : ℚ) := min_eq_right (by exact_mod_cast h255)
  have h2 : max (0 : ℚ) (n : ℚ) = (n : ℚ) := max_eq_right (by exact_mod_cast h0)
  simp only [h1, h2, Int.floor_intCast, sub_self]
  norm_num

/-- C10: a perfectly constant inference output (global max equals global
min) is decoded to mid-gray 128 on all three colour channels, so the
min-max rescale branch never divides by zero. -/
theorem C10_constant_tensor (H W : ℕ) (data : ℕ → ℚ) (v : ℚ)
    (hconst : ∀ i < 3 * (H * W), data i = v) (hW : 0 < W) (hH : 0 < H) :
    ∀ x < W, ∀ y < H, ∀ c < 3, (decodeModelOutput H W data).data x y c = 128 := by
  intro x hx y hy c hc
  have hn : 0 < 3 * (H * W) := by positivity
  unfold decodeModelOutput
  simp only
  rw [if_neg (by omega)]
  rw [tensorMin_const data v _ hn hconst, tensorMax_const data v _ hn hconst]
  have h128 : normalizeOutput v v (data (c * (H * W) + (y * W + x))) = 128 := by
    unfold normalizeOutput
    rw [if_pos rfl]
  rw [h128]
  have harg : max 0 (min 255 (128 : ℚ)) = ((128 : ℤ) : ℚ) := by norm_num
  rw [harg, jsU8Clamp_intCast 128 (by norm_num) (by norm_num)]

/-- C10 witness: a 1x1 constant tensor of value 1/2 decodes to 128. -/
theorem C10_witness : (decodeModelOutput 1 1 (fun _ => 1/2)).data 0 0 0 = 128 :=
  C10_constant_tensor 1 1 (fun _ => 1/2) (1/2) (fun _ _ => rfl) (by decide)
    (by decide) 0 (by decide) 0 (by decide) 0 (by decide)

/-- C4 (amended): the decoder's range classification has five regimes
checked in order — constant output (max = min) maps to 128, then
≈[0,255] with spread over 100 passes through with clamping, [0,1] scales
by 255, [-1,1] maps by (v+1)/2*255, and any other range is min-max
rescaled; on in-range inputs every regime lands in [0,255]. -/
theorem C4_five_regimes (mn mx v : ℚ) :
    (mx = mn → normalizeOutput mn mx v = 128) ∧
    (mx ≠ mn → -10 ≤ mn → mx ≤ 265 → 100 < mx - mn →
      normalizeOutput mn mx v = max 0 (min 255 v)) ∧
    (mx ≠ mn → ¬(-10 ≤ mn ∧ mx ≤ 265 ∧ 100 < mx - mn) → -1/10 ≤ mn → mx ≤ 11/10 →
      normalizeOutput mn mx v = max 0 (min 255 (v * 255))) ∧
    (mx ≠ mn → ¬(-10 ≤ mn ∧ mx ≤ 265 ∧ 100 < mx - mn) → ¬(-1/10 ≤ mn ∧ mx ≤ 11/10) →
      -11/10 ≤ mn → mx ≤ 11/10 →
      normalizeOutput mn mx v = max 0 (min 255 ((v + 1) / 2 * 255))) ∧
    (mx ≠ mn → ¬(-10 ≤ mn ∧ mx ≤ 265 ∧ 100 < mx - mn) → ¬(-1/10 ≤ mn ∧ mx ≤ 11/10) →
      ¬(-11/10 ≤ mn ∧ mx ≤ 11/10) →
      normalizeOutput mn mx v = (v - mn) / (mx - mn) * 255) ∧
    (mn ≤ v → v ≤ mx → 0 ≤ normalizeOutput mn mx v ∧ normalizeOutput mn mx v ≤ 255) := by
  refine ⟨?_, ?_, ?_, ?_, ?_, ?_⟩
  · intro h
    unfold normalizeOutput
    rw [if_pos h]
  · intro h1 h2 h3 h4
    unfold normalizeOutput
    rw [if_neg h1, if_pos ⟨h2, h3, h4⟩]
  · intro h1 hn1 h2 h3
    unfold normalizeOutput
    rw [if_neg h1, if_neg hn1, if_pos ⟨h2, h3⟩]
  · intro h1 hn1 hn2 h2 h3
    unfold normalizeOutput
    rw [if_neg h1, if_neg hn1, if_neg hn2, if_pos ⟨h2, h3⟩]
  · intro h1 hn1 hn2 hn3
    unfold normalizeOutput
    rw [if_neg h1, if_neg hn1, if_neg hn2, if_neg hn3]
  · intro hv1 hv2
    unfold normalizeOutput
    split_ifs with h1 h2 h3 h4
    · norm_num
    · exact ⟨le_max_left 0 _, max_le (by norm_num) (min_le_left _ _)⟩
    · exact ⟨le_max_left 0 _, max_le (by norm_num) (min_le_left _ _)⟩
    · exact ⟨le_max_left 0 _, max_le (by norm_num) (min_le_left _ _)⟩
    · have hlt : mn < mx := lt_of_le_of_ne (le_trans hv1 hv2) (Ne.symm h1)
      have hpos : (0 : ℚ) < mx - mn := sub_pos.2 hlt
      constructor
      · exact mul_nonneg (div_nonneg (sub_nonneg.2 hv1) hpos.le) (by norm_num)
      · have hle1 : (v - mn) / (mx - mn) ≤ 1 := (div_le_one hpos).2 (by linarith)
        calc (v - mn) / (mx - mn) * 255 ≤ 1 * 255 :=
              mul_le_mul_of_nonneg_right hle1 (by norm_num)
          _ = 255 := by norm_num

/-- C4 witness: a tensor spanning [0,255] passes through with clamping. -/
theorem C4_witness : normalizeOutput 0 255 100 = max 0 (min 255 100) :=
  (C4_five_regimes 0 255 100).2.1 (by norm_num) (by norm_num) (by norm_num)
    (by norm_num)

/-- C4 counterexample: the decoder does not classify into exactly the four
documented regimes.  A constant tensor of value 200 (inside ≈[0,255])
decodes to 128, not to the claimed clamped pass-through 200; and a tensor
ranging over [50,60] (inside ≈[0,255]) is min-max rescaled (50 maps to 0),
not passed through as the claimed 50. -/
theorem C4_counterexample :
    (decodeModelOutput 1 1 (fun _ => 200)).data 0 0 0 = 128 ∧
    jsU8Clamp (max 0 (min 255 (claimedNormalize 200 200 200))) = 200 ∧
    (decodeModelOutput 1 2 (fun i => if i % 2 = 0 then 50 else 60)).data 0 0 0 = 0 ∧
    jsU8Clamp (max 0 (min 255 (claimedNormalize 50 60 50))) = 50 ∧
    (128 : ℤ) ≠ 200 ∧ (0 : ℤ) ≠ 50 := by
  refine ⟨?_, ?_, ?_, ?_, by norm_num, by norm_num⟩
  · unfold decodeModelOutput
    simp only
    rw [if_neg (by norm_num : ¬(0 = 3))]
    rw [tensorMin_const (fun _ => (200 : ℚ)) 200 _ (by norm_num) (fun _ _ => rfl),
      tensorMax_const (fun _ => (200 : ℚ)) 200 _ (by norm_num) (fun _ _ => rfl)]
    have h128 : normalizeOutput 200 200
        ((fun _ => (200 : ℚ)) (0 * (1 * 1) + (0 * 1 + 0))) = 128 := by
      unfold normalizeOutput
      rw [if_pos rfl]
    rw [h128]
    have harg : max 0 (min 255 (128 : ℚ)) = ((128 : ℤ) : ℚ) := by norm_num
    rw [harg, jsU8Clamp_intCast 128 (by norm_num) (by norm_num)]
  · have hc : claimedNormalize 200 200 200 = 200 := by
      unfold claimedNormalize
      rw [if_pos ⟨by norm_num, by norm_num⟩]
      norm_num
    rw [hc]
    have harg : max 0 (min 255 (200 : ℚ)) = ((200 : ℤ) : ℚ) := by norm_num
    rw [harg, jsU8Clamp_intCast 200 (by norm_num) (by norm_num)]
  · have h5060 : (50 : ℚ) ≤ 60 := by norm_num
    have hmin : tensorMin (fun i => if i % 2 = 0 then (50 : ℚ) else 60) (3 * (1 * 2)) = 50 := by
      show min (min (min (min (min 50 60) 50) 60) 50) 60 = 50
      rw [min_eq_left h5060, min_self, min_eq_left h5060, min_self, min_eq_left h5060]
    have hmax : tensorMax (fun i => if i % 2 = 0 then (50 : ℚ) else 60) (3 * (1 * 2)) = 60 := by
      show max (max (max (max (max 50 60) 50) 60) 50) 60 = 60
      rw [max_eq_right h5060, max_eq_left h5060, max_self, max_eq_left h5060, max_self]
    have hn : normalizeOutput 50 60 50 = 0 := by
      unfold normalizeOutput
      rw [if_neg (by norm_num), if_neg (by norm_num), if_neg (by norm_num),
        if_neg (by norm_num)]
      norm_num
    unfold decodeModelOutput
    simp only
    rw [if_neg (by norm_num : ¬(0 = 3))]
    rw [hmin, hmax]
    have hd : (if True then (50 : ℚ) else 60) = 50 := if_pos trivial
    rw [hd, hn]
    have harg : max 0 (min 255 (0 : ℚ)) = ((0 : ℤ) : ℚ) := by norm_num
    rw [harg, jsU8Clamp_intCast 0 (by norm_num) (by norm_num)]
  · have hc : claimedNormalize 50 60 50 = 50 := by
      unfold claimedNormalize
      rw [if_pos ⟨by norm_num, by norm_num⟩]
      norm_num
    rw [hc]
    have harg : max 0 (min 255 (50 : ℚ)) = ((50 : ℤ) : ℚ) := by norm_num
    rw [harg, jsU8Clamp_intCast 50 (by norm_num) (by norm_num)]

/-- C3 (amended): compositing preserves dimensions, leaves every pixel
outside the patch region unchanged, blends each RGB channel inside the
patch as round(original*(1-alpha) + inpainted*alpha) with alpha read from
the patch mask's red channel, and forces alpha to 255 on blended pixels;
consequently the round trip is exact whenever the inpainted patch equals
the original at the patch location and the original is opaque there. -/
theorem C3_composite (orig patch mask : ImageData) (offsetX offsetY : ℤ) :
    (compositePatchToImage orig patch mask offsetX offsetY).width = orig.width ∧
    (compositePatchToImage orig patch mask offsetX offsetY).height = orig.height ∧
    (∀ x y c, ¬ patchCovers patch offsetX offsetY orig.width orig.height x y →
      (compositePatchToImage orig patch mask offsetX offsetY).data x y c =
        orig.data x y c) ∧
    (∀ x y, patchCovers patch offsetX offsetY orig.width orig.height x y →
      (∀ c < 3, (compositePatchToImage orig patch mask offsetX offsetY).data x y c =
        jsRoundQ ((orig.data x y c : ℚ) *
            (1 - (mask.data ((x : ℤ) - offsetX).toNat ((y : ℤ) - offsetY).toNat 0 : ℚ) / 255) +
          (patch.data ((x : ℤ) - offsetX).toNat ((y : ℤ) - offsetY).toNat c : ℚ) *
            ((mask.data ((x : ℤ) - offsetX).toNat ((y : ℤ) - offsetY).toNat 0 : ℚ) / 255))) ∧
      (compositePatchToImage orig patch mask offsetX offsetY).data x y 3 = 255) ∧
    ((∀ x < orig.width, ∀ y < orig.height,
        patchCovers patch offsetX offsetY orig.width orig.height x y →
        (∀ c < 3, patch.data ((x : ℤ) - offsetX).toNat ((y : ℤ) - offsetY).toNat c =
          orig.data x y c) ∧ orig.data x y 3 = 255) →
      ∀ x < orig.width, ∀ y < orig.height, ∀ c < 4,
        (compositePatchToImage orig patch mask offsetX offsetY).data x y c =
          orig.data x y c) := by
  refine ⟨rfl, rfl, ?_, ?_, ?_⟩
  · intro x y c hnc
    unfold compositePatchToImage
    simp only
    rw [if_neg hnc]
  · intro x y hcov
    constructor
    · intro c hc3
      unfold compositePatchToImage
      simp only
      rw [if_pos hcov, if_neg (by omega : ¬(c = 3))]
    · unfold compositePatchToImage
      simp only
      rw [if_pos hcov, if_pos trivial]
  · intro hyp x hx y hy c hc4
    by_cases hcov : patchCovers patch offsetX offsetY orig.width orig.height x y
    · obtain ⟨hrgb, ha⟩ := hyp x hx y hy hcov
      unfold compositePatchToImage
      simp only
      rw [if_pos hcov]
      by_cases hc3 : c = 3
      · subst hc3
        rw [if_pos rfl]
        exact ha.symm
      · rw [if_neg hc3]
        rw [hrgb c (by omega)]
        have hblend : ∀ (o : ℤ) (mv : ℚ), (o : ℚ) * (1 - mv) + (o : ℚ) * mv = (o : ℚ) := by
          intro o mv; ring
        rw [hblend (orig.data x y c)]
        exact jsRoundQ_intCast _
    · unfold compositePatchToImage
      simp only
      rw [if_neg hcov]

/-- C3 witness: compositing a 1x1 opaque white image onto itself with a full
mask reproduces the original exactly. -/
theorem C3_witness :
    (compositePatchToImage (constImage 1 1 255) (constImage 1 1 255)
      (constImage 1 1 255) 0 0).data 0 0 3 = (constImage 1 1 255).data 0 0 3 :=
  (C3_composite (constImage 1 1 255) (constImage 1 1 255) (constImage 1 1 255)
      0 0).2.2.2.2
    (fun _ _ _ _ _ => ⟨fun _ _ => rfl, rfl⟩) 0 (by decide) 0 (by decide)
    3 (by decide)

/-- C3 counterexample: the round trip is not exact on every image.  For a
1x1 original whose alpha is 128, compositing the original's own pixels back
over it with a full mask forces alpha to 255, so the output differs from
the original. -/
theorem C3_counterexample :
    (compositePatchToImage alphaTestImage alphaTestImage fullMask1x1 0 0).data 0 0 3 = 255 ∧
    alphaTestImage.data 0 0 3 = 128 ∧ (255 : ℤ) ≠ 128 := by
  refine ⟨?_, rfl, by norm_num⟩
  have hcov : patchCovers alphaTestImage 0 0 alphaTestImage.width
      alphaTestImage.height 0 0 := by
    unfold patchCovers
    refine ⟨by decide, ?_, by decide, ?_, by decide, by decide⟩
    · show (0 : ℤ) < 0 + (alphaTestImage.width : ℤ)
      decide
    · show (0 : ℤ) < 0 + (alphaTestImage.height : ℤ)
      decide
  unfold compositePatchToImage
  simp only
  rw [if_pos hcov, if_pos trivial]

/-- Math.round of an integer-valued real is that integer. -/
theorem jsRoundR_intCast (n : ℤ) : jsRoundR (n : ℝ) = n := by
  unfold jsRoundR
  rw [add_comm, Int.floor_add_int]
  norm_num

/-- The raw Gaussian list has 2*radius+1 entries. -/
theorem gaussKernelRaw_length (radius : ℕ) :
    (gaussKernelRaw radius).length = 2 * radius + 1 := by
  unfold gaussKernelRaw
  rw [List.length_map, List.length_range]

/-- The raw Gaussian values are positive. -/
theorem gaussKernelRaw_sum_pos (radius : ℕ) : 0 < (gaussKernelRaw radius).sum := by
  apply List.sum_pos
  · intro v hv
    unfold gaussKernelRaw at hv
    obtain ⟨i, _, rfl⟩ := List.mem_map.1 hv
    exact Real.exp_pos _
  · apply List.ne_nil_of_length_pos
    rw [gaussKernelRaw_length]
    omega

/-- Sum of a list divided pointwise by a constant. -/
theorem list_sum_map_div (l : List ℝ) (S : ℝ) :
    (l.map (fun v => v / S)).sum = l.sum / S := by
  induction l with
  | nil => simp
  | cons a t ih => simp [ih, add_div]

/-- The normalised kernel has 2*radius+1 entries. -/
theorem createGaussianKernel_length (radius : ℕ) :
    (createGaussianKernel radius).length = 2 * radius + 1 := by
  unfold createGaussianKernel
  rw [List.length_map, gaussKernelRaw_length]

/-- The normalised kernel sums to 1. -/
theorem createGaussianKernel_sum (radius : ℕ) :
    (createGaussianKernel radius).sum = 1 := by
  unfold createGaussianKernel
  rw [list_sum_map_div]
  exact div_self (gaussKernelRaw_sum_pos radius).ne'

/-- Entry k of the normalised kernel is the Gaussian value at x = k - radius
with sigma = radius/3, divided by the raw sum. -/
theorem createGaussianKernel_getD (radius k : ℕ) (hk : k < 2 * radius + 1) :
    (createGaussianKernel radius).getD k 0 =
      Real.exp (-(((k : ℝ) - radius) * ((k : ℝ) - radius)) /
        (2 * ((radius : ℝ) / 3) * ((radius : ℝ) / 3))) / (gaussKernelRaw radius).sum := by
  unfold createGaussianKernel gaussKernelRaw
  rw [List.map_map, List.getD_eq_getElem?_getD, List.getElem?_map,
    List.getElem?_range (by omega : k < 2 * radius + 1)]
  simp

/-- Every entry of the normalised kernel is positive. -/
theorem createGaussianKernel_getD_pos (radius k : ℕ) (hk : k < 2 * radius + 1) :
    0 < (createGaussianKernel radius).getD k 0 := by
  rw [createGaussianKernel_getD radius k hk]
  exact div_pos (Real.exp_pos _) (gaussKernelRaw_sum_pos radius)

/-- The re-accumulated weight sum of a blur pass is positive. -/
theorem blurWindowSum_pos (radius : ℕ) :
    0 < ∑ k ∈ Finset.range (2 * radius + 1),
      (createGaussianKernel radius).getD k 0 := by
  apply Finset.sum_pos
  · intro k hk
    exact createGaussianKernel_getD_pos radius k (Finset.mem_range.1 hk)
  · exact ⟨0, Finset.mem_range.2 (by omega)⟩

/-- A clamped convolution whose every sample equals c outputs c. -/
theorem blurLineValue_const (kernel : List ℝ) (radius size : ℕ) (line : ℕ → ℤ)
    (x : ℕ) (c : ℤ)
    (hW : 0 < ∑ k ∈ Finset.range (2 * radius + 1), kernel.getD k 0)
    (hline : ∀ k < 2 * radius + 1,
      line (clampNat ((x : ℤ) + (k : ℤ) - (radius : ℤ)) ((size : ℤ) - 1)) = c) :
    blurLineValue kernel radius size line x = c := by
  unfold blurLineValue
  have hsum : (∑ k ∈ Finset.range (2 * radius + 1),
      kernel.getD k 0 *
        (line (clampNat ((x : ℤ) + (k : ℤ) - (radius : ℤ)) ((size : ℤ) - 1)) : ℝ)) =
      (∑ k ∈ Finset.range (2 * radius + 1), kernel.getD k 0) * (c : ℝ) := by
    rw [Finset.sum_mul]
    apply Finset.sum_congr rfl
    intro k hk
    rw [hline k (Finset.mem_range.1 hk)]
  rw [hsum, mul_comm, mul_div_assoc, div_self hW.ne', mul_one]
  exact jsRoundR_intCast c

/-- The clamped sample of a position x < size lies within radius of x and
inside the buffer. -/
theorem clampNat_window (x k radius size : ℕ) (hx : x < size)
    (hk : k < 2 * radius + 1) :
    clampNat ((x : ℤ) + (k : ℤ) - (radius : ℤ)) ((size : ℤ) - 1) < size ∧
    (x : ℤ) - radius ≤ clampNat ((x : ℤ) + (k : ℤ) - (radius : ℤ)) ((size : ℤ) - 1) ∧
    (clampNat ((x : ℤ) + (k : ℤ) - (radius : ℤ)) ((size : ℤ) - 1) : ℤ) ≤
      (x : ℤ) + radius := by
  unfold clampNat
  omega

/-- Blurring outputs c at a pixel whose whole clamped sampling window (both
passes) reads c; with the feathering kernel this specialises to full-white
and all-black neighbourhoods. -/
theorem applyGaussianBlur_window_const (img : ImageData) (radius : ℕ)
    (x y : ℕ) (c : ℤ) (ch : ℕ) (hch : ¬(ch = 3))
    (hx : x < img.width) (hy : y < img.height)
    (hwin : ∀ u v : ℕ, u < img.width → v < img.height →
      (x : ℤ) - radius ≤ u → (u : ℤ) ≤ (x : ℤ) + radius →
      (y : ℤ) - radius ≤ v → (v : ℤ) ≤ (y : ℤ) + radius → img.data u v 0 = c) :
    (applyGaussianBlur img radius).data x y ch = c := by
  have hW := blurWindowSum_pos radius
  unfold applyGaussianBlur
  simp only
  rw [if_neg hch]
  apply blurLineValue_const _ _ _ _ _ _ hW
  intro k hk
  obtain ⟨hv1, hv2, hv3⟩ := clampNat_window y k radius img.height hy hk
  apply blurLineValue_const _ _ _ _ _ _ hW
  intro k2 hk2
  obtain ⟨hu1, hu2, hu3⟩ := clampNat_window x k2 radius img.width hx hk2
  exact hwin _ _ hu1 hv1 hu2 hu3 hv2 hv3

/-- C5: for every radius at least 1, the feathering blur uses a 1-D kernel
of 2*radius+1 Gaussian weights with sigma = radius/3 normalised to sum 1,
applies a horizontal pass then a vertical pass with the same kernel using
clamped (edge-replicating) sampling, and consequently maps a constant
buffer to itself exactly. -/
theorem C5_feather_blur (radius : ℕ) (hr : 1 ≤ radius) :
    (createGaussianKernel radius).length = 2 * radius + 1 ∧
    (createGaussianKernel radius).sum = 1 ∧
    (∀ k < 2 * radius + 1, (createGaussianKernel radius).getD k 0 =
      Real.exp (-(((k : ℝ) - radius) * ((k : ℝ) - radius)) /
        (2 * ((radius : ℝ) / 3) * ((radius : ℝ) / 3))) / (gaussKernelRaw radius).sum) ∧
    (∀ img : ImageData, ∀ x y ch : ℕ, ¬(ch = 3) →
      (applyGaussianBlur img radius).data x y ch =
        blurLineValue (createGaussianKernel radius) radius img.height
          (fun sy => blurLineValue (createGaussianKernel radius) radius img.width
            (fun sx => img.data sx sy 0) x) y) ∧
    (∀ img : ImageData, ∀ c : ℤ,
      (∀ x < img.width, ∀ y < img.height, img.data x y 0 = c) →
      ∀ x < img.width, ∀ y < img.height, ∀ ch, ¬(ch = 3) →
        (applyGaussianBlur img radius).data x y ch = c) := by
  refine ⟨createGaussianKernel_length radius, createGaussianKernel_sum radius,
    fun k hk => createGaussianKernel_getD radius k hk, ?_, ?_⟩
  · intro img x y ch hch
    unfold applyGaussianBlur
    simp only
    rw [if_neg hch]
  · intro img c hconst x hx y hy ch hch
    apply applyGaussianBlur_window_const img radius x y c ch hch hx hy
    intro u v hu hv _ _ _ _
    exact hconst u hu v hv

/-- C5 witness: at radius 1 the kernel has 3 entries. -/
theorem C5_witness : (createGaussianKernel 1).length = 2 * 1 + 1 :=
  (C5_feather_blur 1 (by norm_num)).1

/-- C6 (amended): the Mask Builder output has a pixel with red channel above
the binarization threshold 128 when the painted shape is far enough inside
the canvas: in fixed-position mode it suffices that the image is at least
160x160 (the blurred mask is 255 at the star center), and in
detection-anchored mode it suffices that some pixel's 81x81 blur window
lies inside both the dilated rectangle and the image.  (For small images
the fixed-position ellipse can lie entirely off-canvas, so the claim's
unconditional form fails; see the counterexample.) -/
theorem C6_mask_nonzero :
    (∀ w h : ℕ, 160 ≤ w → 160 ≤ h →
      ∃ x < w, ∃ y < h, 128 < (createFixedPositionMask w h).data x y 0) ∧
    (∀ w h : ℕ, ∀ dx dy : ℤ, ∀ x y : ℕ,
      40 ≤ x → x + 40 < w → 40 ≤ y → y + 40 < h →
      (createMaskRect w h (some (dx, dy))).1 ≤ (x : ℤ) - 40 →
      (x : ℤ) + 40 < (createMaskRect w h (some (dx, dy))).1 +
        (createMaskRect w h (some (dx, dy))).2.2.1 →
      (createMaskRect w h (some (dx, dy))).2.1 ≤ (y : ℤ) - 40 →
      (y : ℤ) + 40 < (createMaskRect w h (some (dx, dy))).2.1 +
        (createMaskRect w h (some (dx, dy))).2.2.2 →
      ∃ x' < w, ∃ y' < h, 128 < (createMask w h (some (dx, dy))).data x' y' 0) := by
  constructor
  · intro w h hw hh
    refine ⟨w - 120, by omega, h - 120, by omega, ?_⟩
    have h255 : (createFixedPositionMask w h).data (w - 120) (h - 120) 0 = 255 := by
      unfold createFixedPositionMask
      apply applyGaussianBlur_window_const (fixedEllipseImage w h)
        MASK_FEATHER_RADIUS (w - 120) (h - 120) 255 0 (by norm_num)
        (by show w - 120 < w; omega) (by show h - 120 < h; omega)
      intro u v hu hv h1 h2 h3 h4
      unfold fixedEllipseImage
      simp only
      rw [if_neg (by norm_num), if_pos ?_]
      unfold fixedMaskCenterX fixedMaskCenterY fixedMaskRadius MASK_DILATION
      unfold MASK_FEATHER_RADIUS at h1 h2 h3 h4
      have hux1 : -40 ≤ (u : ℤ) - ((w : ℤ) - 120) := by omega
      have hux2 : (u : ℤ) - ((w : ℤ) - 120) ≤ 40 := by omega
      have hvy1 : -40 ≤ (v : ℤ) - ((h : ℤ) - 120) := by omega
      have hvy2 : (v : ℤ) - ((h : ℤ) - 120) ≤ 40 := by omega
      nlinarith [hux1, hux2, hvy1, hvy2]
    rw [h255]
    norm_num
  · intro w h dx dy x y hx40 hxw hy40 hyh hr1 hr2 hr3 hr4
    refine ⟨x, by omega, y, by omega, ?_⟩
    have h255 : (createMask w h (some (dx, dy))).data x y 0 = 255 := by
      unfold createMask
      apply applyGaussianBlur_window_const
        (rectMaskImage w h (createMaskRect w h (some (dx, dy))))
        MASK_FEATHER_RADIUS x y 255 0 (by norm_num)
        (by show x < w; omega) (by show y < h; omega)
      intro u v hu hv h1 h2 h3 h4
      unfold rectMaskImage
      simp only
      rw [if_neg (by norm_num), if_pos ?_]
      unfold MASK_FEATHER_RADIUS at h1 h2 h3 h4
      refine ⟨by omega, by omega, by omega, by omega⟩
    rw [h255]
    norm_num

/-- C6 witness: a 200x200 image in fixed-position mode has a mask pixel
above the threshold, and so does a 2000x2000 image in detection-anchored
mode with the detection at the ROI origin (the dilated 120x120 rectangle at
[1690,1810) is interior, so its center pixel survives the blur at 255). -/
theorem C6_witness :
    (∃ x < 200, ∃ y < 200, 128 < (createFixedPositionMask 200 200).data x y 0) ∧
    (∃ x < 2000, ∃ y < 2000,
      128 < (createMask 2000 2000 (some (0, 0))).data x y 0) := by
  constructor
  · exact C6_mask_nonzero.1 200 200 (by norm_num) (by norm_num)
  · have hrect : createMaskRect 2000 2000 (some (0, 0)) = (1690, 1690, 120, 120) := by
      have hfloor : ⌊((2000 : ℕ) : ℚ) * ROI_PERCENT⌋ = (300 : ℤ) := by
        rw [show ((2000 : ℕ) : ℚ) * ROI_PERCENT = ((300 : ℤ) : ℚ) by
          norm_num [ROI_PERCENT]]
        exact Int.floor_intCast 300
      unfold createMaskRect
      simp only [hfloor]
      decide
    exact C6_mask_nonzero.2 2000 2000 0 0 1750 1750 (by norm_num) (by norm_num)
      (by norm_num) (by norm_num) (by rw [hrect]; norm_num)
      (by rw [hrect]; norm_num) (by rw [hrect]; norm_num) (by rw [hrect]; norm_num)

/-- C6 counterexample: neither Mask Builder mode always paints a
thresholded pixel.  Fixed-position mode: on a 50x50 image the ellipse
(center (-70,-70), radius 90) lies entirely off-canvas, so the blurred mask
is all black.  Detection-anchored mode: on a 1000x1000 image with the
detection (850, 850) — exactly what the detection worker reports for a
badge at the ROI origin, since it returns full-image coordinates — the
service adds the ROI offset again, the dilated rectangle starts at x = 1690
beyond the 1000-pixel frame, nothing is painted, and the blurred mask is
all black.  In both cases the empty-bounding-box case of patch extraction
is reachable. -/
theorem C6_counterexample :
    (¬ ∃ x < 50, ∃ y < 50, 128 < (createFixedPositionMask 50 50).data x y 0) ∧
    (¬ ∃ x < 1000, ∃ y < 1000,
      128 < (createMask 1000 1000 (some (850, 850))).data x y 0) := by
  constructor
  · rintro ⟨x, hx, y, hy, hlt⟩
    have hzero : (createFixedPositionMask 50 50).data x y 0 = 0 := by
      unfold createFixedPositionMask
      apply applyGaussianBlur_window_const (fixedEllipseImage 50 50)
        MASK_FEATHER_RADIUS x y 0 0 (by norm_num) hx hy
      intro u v hu hv h1 h2 h3 h4
      unfold fixedEllipseImage
      simp only
      rw [if_neg (by norm_num), if_neg ?_]
      unfold fixedMaskCenterX fixedMaskCenterY fixedMaskRadius MASK_DILATION
      intro hcon
      have hu0 : (0 : ℤ) ≤ (u : ℤ) := Int.natCast_nonneg u
      have hv0 : (0 : ℤ) ≤ (v : ℤ) := Int.natCast_nonneg v
      have hc50 : ((50 : ℕ) : ℤ) = 50 := by norm_num
      rw [hc50] at hcon
      nlinarith [hu0, hv0, hcon]
    rw [hzero] at hlt
    omega
  · have hrect : createMaskRect 1000 1000 (some (850, 850)) =
        (1690, 1690, -690, -690) := by
      have hfloor : ⌊((1000 : ℕ) : ℚ) * ROI_PERCENT⌋ = (150 : ℤ) := by
        rw [show ((1000 : ℕ) : ℚ) * ROI_PERCENT = ((150 : ℤ) : ℚ) by
          norm_num [ROI_PERCENT]]
        exact Int.floor_intCast 150
      unfold createMaskRect
      simp only [hfloor]
      decide
    rintro ⟨x, hx, y, hy, hlt⟩
    have hzero : (createMask 1000 1000 (some (850, 850))).data x y 0 = 0 := by
      unfold createMask
      apply applyGaussianBlur_window_const
        (rectMaskImage 1000 1000 (createMaskRect 1000 1000 (some (850, 850))))
        MASK_FEATHER_RADIUS x y 0 0 (by norm_num) hx hy
      intro u v hu hv h1 h2 h3 h4
      unfold rectMaskImage
      simp only
      have hns : ¬((1690 : ℤ) ≤ (u : ℤ) ∧ (u : ℤ) < 1690 + -690 ∧
          (1690 : ℤ) ≤ (v : ℤ) ∧ (v : ℤ) < 1690 + -690) := by omega
      rw [if_neg (by norm_num), if_neg ?_]
      rw [hrect]
      exact hns
    rw [hzero] at hlt
    omega

/-- Scan membership: the bounding-box loop visits exactly the in-bounds
pixels. -/
theorem mem_scanPairs (w h : ℕ) (p : ℕ × ℕ) :
    p ∈ scanPairs w h ↔ p.1 < w ∧ p.2 < h := by
  rcases p with ⟨x, y⟩
  unfold scanPairs
  simp only [List.mem_flatMap, List.mem_map, List.mem_range, Prod.mk.injEq]
  constructor
  · rintro ⟨y', hy', x', hx', rfl, rfl⟩
    exact ⟨hx', hy'⟩
  · rintro ⟨hx, hy⟩
    exact ⟨y, hy, x, hx, rfl, rfl⟩

/-- Lower bound on the scanned minX: preserved if every qualifying pixel's
x-coordinate is at least a. -/
theorem bbox_foldl_minX_ge (mask : ImageData) (l : List (ℕ × ℕ)) (st : BBox)
    (a : ℤ) (hl : ∀ p ∈ l, 128 < mask.data p.1 p.2 0 → a ≤ (p.1 : ℤ))
    (hst : a ≤ st.minX) : a ≤ (l.foldl (bboxStep mask) st).minX := by
  induction l generalizing st with
  | nil => exact hst
  | cons hd tl ih =>
    rw [List.foldl_cons]
    apply ih
    · intro p hp hq
      exact hl p (List.mem_cons_of_mem hd hp) hq
    · unfold bboxStep
      split_ifs with hq
      · exact le_min hst (hl hd (List.mem_cons_self hd tl) hq)
      · exact hst

/-- Upper bound on the scanned maxX. -/
theorem bbox_foldl_maxX_le (mask : ImageData) (l : List (ℕ × ℕ)) (st : BBox)
    (b : ℤ) (hl : ∀ p ∈ l, 128 < mask.data p.1 p.2 0 → (p.1 : ℤ) ≤ b)
    (hst : st.maxX ≤ b) : (l.foldl (bboxStep mask) st).maxX ≤ b := by
  induction l generalizing st with
  | nil => exact hst
  | cons hd tl ih =>
    rw [List.foldl_cons]
    apply ih
    · intro p hp hq
      exact hl p (List.mem_cons_of_mem hd hp) hq
    · unfold bboxStep
      split_ifs with hq
      · exact max_le hst (hl hd (List.mem_cons_self hd tl) hq)
      · exact hst

/-- The scanned minX never grows. -/
theorem bbox_foldl_minX_mono (mask : ImageData) (l : List (ℕ × ℕ)) (st : BBox) :
    (l.foldl (bboxStep mask) st).minX ≤ st.minX := by
  induction l generalizing st with
  | nil => exact le_refl _
  | cons hd tl ih =>
    rw [List.foldl_cons]
    refine le_trans (ih (bboxStep mask st hd)) ?_
    unfold bboxStep
    split_ifs with hq
    · exact min_le_left _ _
    · exact le_refl _

/-- The scanned maxX never shrinks. -/
theorem bbox_foldl_maxX_mono (mask : ImageData) (l : List (ℕ × ℕ)) (st : BBox) :
    st.maxX ≤ (l.foldl (bboxStep mask) st).maxX := by
  induction l generalizing st with
  | nil => exact le_refl _
  | cons hd tl ih =>
    rw [List.foldl_cons]
    refine le_trans ?_ (ih (bboxStep mask st hd))
    unfold bboxStep
    split_ifs with hq
    · exact le_max_left _ _
    · exact le_refl _

/-- A qualifying scanned pixel pushes minX down to its x-coordinate. -/
theorem bbox_foldl_minX_le (mask : ImageData) (l : List (ℕ × ℕ)) (st : BBox)
    (p : ℕ × ℕ) (hp : p ∈ l) (hq : 128 < mask.data p.1 p.2 0) :
    (l.foldl (bboxStep mask) st).minX ≤ (p.1 : ℤ) := by
  induction l generalizing st with
  | nil => cases hp
  | cons hd tl ih =>
    rw [List.foldl_cons]
    rcases List.mem_cons.1 hp with rfl | hp'
    · refine le_trans (bbox_foldl_minX_mono mask tl _) ?_
      unfold bboxStep
      rw [if_pos hq]
      exact min_le_right _ _
    · exact ih _ hp'

/-- A qualifying scanned pixel pushes maxX up to its x-coordinate. -/
theorem bbox_foldl_maxX_ge (mask : ImageData) (l : List (ℕ × ℕ)) (st : BBox)
    (p : ℕ × ℕ) (hp : p ∈ l) (hq : 128 < mask.data p.1 p.2 0) :
    (p.1 : ℤ) ≤ (l.foldl (bboxStep mask) st).maxX := by
  induction l generalizing st with
  | nil => cases hp
  | cons hd tl ih =>
    rw [List.foldl_cons]
    rcases List.mem_cons.1 hp with rfl | hp'
    · refine le_trans ?_ (bbox_foldl_maxX_mono mask tl _)
      unfold bboxStep
      rw [if_pos hq]
      exact le_max_right _ _
    · exact ih _ hp'

/-- The blurred fixed-position mask of a 1000x1000 image is 255 at the star
center (880, 880). -/
theorem fixedMask1000_center :
    (createFixedPositionMask 1000 1000).data 880 880 0 = 255 := by
  unfold createFixedPositionMask
  apply applyGaussianBlur_window_const (fixedEllipseImage 1000 1000)
    MASK_FEATHER_RADIUS 880 880 255 0 (by norm_num)
    (by show (880 : ℕ) < 1000; norm_num) (by show (880 : ℕ) < 1000; norm_num)
  intro u v hu hv h1 h2 h3 h4
  unfold fixedEllipseImage
  simp only
  rw [if_neg (by norm_num), if_pos ?_]
  unfold fixedMaskCenterX fixedMaskCenterY fixedMaskRadius MASK_DILATION
  unfold MASK_FEATHER_RADIUS at h1 h2 h3 h4
  push_cast at h1 h2 h3 h4
  norm_num at h1 h2 h3 h4 ⊢
  nlinarith [h1, h2, h3, h4]

/-- On a 1000x1000 image, every pixel of the blurred fixed-position mask
left of or above coordinate 750 is zero: the 81-wide blur window cannot
reach the ellipse. -/
theorem fixedMask1000_zero_outside (x y : ℕ) (hx : x < 1000) (hy : y < 1000)
    (hfar : x < 750 ∨ y < 750) :
    (createFixedPositionMask 1000 1000).data x y 0 = 0 := by
  unfold createFixedPositionMask
  apply applyGaussianBlur_window_const (fixedEllipseImage 1000 1000)
    MASK_FEATHER_RADIUS x y 0 0 (by norm_num) hx hy
  intro u v hu hv h1 h2 h3 h4
  unfold fixedEllipseImage
  simp only
  rw [if_neg (by norm_num), if_neg ?_]
  unfold fixedMaskCenterX fixedMaskCenterY fixedMaskRadius MASK_DILATION
  unfold MASK_FEATHER_RADIUS at h1 h2 h3 h4
  push_cast at h1 h2 h3 h4
  norm_num
  rcases hfar with hx750 | hy750
  · have hub : (u : ℤ) - 880 ≤ -91 := by omega
    have hsq : (8281 : ℤ) ≤ ((u : ℤ) - 880) ^ 2 := by nlinarith [hub]
    linarith [hsq, sq_nonneg ((v : ℤ) - 880)]
  · have hvb : (v : ℤ) - 880 ≤ -91 := by omega
    have hsq : (8281 : ℤ) ≤ ((v : ℤ) - 880) ^ 2 := by nlinarith [hvb]
    linarith [hsq, sq_nonneg ((u : ℤ) - 880)]

/-- The mask bounding box of the 1000x1000 fixed-position mask is sandwiched:
minX in [750, 880] and maxX in [880, 999]. -/
theorem fixedMask1000_bbox :
    750 ≤ (maskBBox 1000 1000 (createFixedPositionMask 1000 1000)).minX ∧
    (maskBBox 1000 1000 (createFixedPositionMask 1000 1000)).minX ≤ 880 ∧
    880 ≤ (maskBBox 1000 1000 (createFixedPositionMask 1000 1000)).maxX ∧
    (maskBBox 1000 1000 (createFixedPositionMask 1000 1000)).maxX ≤ 999 := by
  have hmem : ((880, 880) : ℕ × ℕ) ∈ scanPairs 1000 1000 :=
    (mem_scanPairs 1000 1000 (880, 880)).2 ⟨by norm_num, by norm_num⟩
  have hq : 128 < (createFixedPositionMask 1000 1000).data 880 880 0 := by
    rw [fixedMask1000_center]
    norm_num
  refine ⟨?_, ?_, ?_, ?_⟩
  · apply bbox_foldl_minX_ge _ _ _ 750
    · intro p hp hqual
      obtain ⟨hpx, hpy⟩ := (mem_scanPairs 1000 1000 p).1 hp
      by_contra hlt
      have : p.1 < 750 := by omega
      have h0 := fixedMask1000_zero_outside p.1 p.2 hpx hpy (Or.inl this)
      omega
    · norm_num
  · exact bbox_foldl_minX_le _ _ _ (880, 880) hmem hq
  · exact bbox_foldl_maxX_ge _ _ _ (880, 880) hmem hq
  · apply bbox_foldl_maxX_le _ _ _ 999
    · intro p hp hqual
      obtain ⟨hpx, hpy⟩ := (mem_scanPairs 1000 1000 p).1 hp
      omega
    · norm_num

/-- C1 (amended): the worker's inpaint call performs patch extraction in
every flow, the fixed-position flow included: the image/mask pair handed to
the tensor codec and the inference engine is the padded-bounding-box patch
pair (not the full frame in general, only bounded by it), and the composite
uses the patch mask at the patch offset. -/
theorem C1_patch_inference (run : RunOracle) (resize : ResizeOracle)
    (imageData maskData : ImageData) (t : ℚ) :
    inferenceInput imageData maskData =
      ((extractWatermarkPatch imageData maskData).patchImage,
        (extractWatermarkPatch imageData maskData).patchMask) ∧
    (inpaint run resize imageData maskData t).2 =
      compositePatchToImage imageData
        (inpaintedPatchOf run resize imageData maskData)
        (extractWatermarkPatch imageData maskData).patchMask
        (extractWatermarkPatch imageData maskData).offsetX
        (extractWatermarkPatch imageData maskData).offsetY ∧
    (inferenceInput imageData maskData).1.width ≤ imageData.width ∧
    (inferenceInput imageData maskData).1.height ≤ imageData.height ∧
    (inferenceInput imageData maskData).2.width =
      (inferenceInput imageData maskData).1.width ∧
    (inferenceInput imageData maskData).2.height =
      (inferenceInput imageData maskData).1.height := by
  refine ⟨rfl, rfl, ?_, ?_, rfl, rfl⟩ <;>
  · unfold inferenceInput extractWatermarkPatch cropImage
    simp only
    unfold PATCH_PADDING
    omega

/-- C1 counterexample: in the fixed-position flow on a 1000x1000 image, the
image/mask pair handed to the tensor codec does not have the full image's
dimensions: the extracted patch is nonempty but strictly narrower than the
frame. -/
theorem C1_counterexample :
    0 < (inferenceInput (constImage 1000 1000 255)
      (createFixedPositionMask 1000 1000)).1.width ∧
    (inferenceInput (constImage 1000 1000 255)
      (createFixedPositionMask 1000 1000)).1.width < 1000 ∧
    (constImage 1000 1000 255).width = 1000 := by
  obtain ⟨hb1, hb2, hb3, hb4⟩ := fixedMask1000_bbox
  refine ⟨?_, ?_, rfl⟩ <;>
  · unfold inferenceInput extractWatermarkPatch cropImage constImage
    simp only
    unfold PATCH_PADDING
    omega

/-- Unfolding one scale of the detection loop. -/
theorem detectFold_cons (tc tr : ℕ) (roiW roiH roiX roiY : ℤ) (m : MatchOracle)
    (hd : ℚ) (tl : List ℚ) (st : Option DetectionResult × ℚ) :
    detectFold tc tr roiW roiH roiX roiY m (hd :: tl) st =
      detectFold tc tr roiW roiH roiX roiY m tl
        (detectStep roiX roiY st (matchAtScale tc tr roiW roiH m hd)) := rfl

/-- A skipped scale leaves the loop state unchanged. -/
theorem detectStep_none (roiX roiY : ℤ) (st : Option DetectionResult × ℚ) :
    detectStep roiX roiY st none = st := rfl

/-- A matched scale updates the state exactly when its confidence strictly
exceeds the best so far. -/
theorem detectStep_some (roiX roiY : ℤ) (st : Option DetectionResult × ℚ)
    (cx cy : ℕ) (cw ch : ℤ) (cc : ℚ) :
    detectStep roiX roiY st (some ⟨cx, cy, cw, ch, cc⟩) =
      if st.2 < cc then (some ⟨roiX + cx, roiY + cy, cw, ch, cc⟩, cc) else st := rfl

/-- matchAtScale skips a scale whose resized template exceeds the ROI. -/
theorem matchAtScale_inactive (tc tr : ℕ) (roiW roiH : ℤ) (m : MatchOracle)
    (s : ℚ) (h : ¬ scaleActive tc tr roiW roiH s) :
    matchAtScale tc tr roiW roiH m s = none := by
  unfold scaleActive at h
  unfold matchAtScale
  simp only
  rw [if_pos (by omega)]

/-- matchAtScale reports the score maximum and location for a fitting
scale. -/
theorem matchAtScale_active (tc tr : ℕ) (roiW roiH : ℤ) (m : MatchOracle)
    (s : ℚ) (h : scaleActive tc tr roiW roiH s) :
    matchAtScale tc tr roiW roiH m s =
      some ⟨(m s).2.1, (m s).2.2, jsRoundQ ((tc : ℚ) * s),
        jsRoundQ ((tr : ℚ) * s), (m s).1⟩ := by
  unfold scaleActive at h
  unfold matchAtScale
  simp only
  rw [if_neg (by omega)]

/-- If every scale of the list is skipped, the loop is the identity. -/
theorem detectFold_inactive (tc tr : ℕ) (roiW roiH roiX roiY : ℤ)
    (m : MatchOracle) (l : List ℚ) (st : Option DetectionResult × ℚ)
    (hl : ∀ s ∈ l, ¬ scaleActive tc tr roiW roiH s) :
    detectFold tc tr roiW roiH roiX roiY m l st = st := by
  induction l generalizing st with
  | nil => rfl
  | cons hd tl ih =>
    rw [detectFold_cons,
      matchAtScale_inactive tc tr roiW roiH m hd (hl hd (List.mem_cons_self hd tl)),
      detectStep_none]
    exact ih _ (fun s hs => hl s (List.mem_cons_of_mem hd hs))

/-- Loop invariant of the best-candidate tracking: the stored best's
confidence equals the tracked best confidence, the tracked confidence only
grows and dominates every non-skipped scale's confidence, a none result
means nothing ever beat the initial confidence, and a some result is the
initial best or an actual candidate from a non-skipped scale translated by
the ROI offset. -/
theorem detectFold_invariant (tc tr : ℕ) (roiW roiH roiX roiY : ℤ)
    (m : MatchOracle) (l : List ℚ) (st : Option DetectionResult × ℚ)
    (hst : ∀ b, st.1 = some b → b.confidence = st.2) :
    (∀ b, (detectFold tc tr roiW roiH roiX roiY m l st).1 = some b →
      b.confidence = (detectFold tc tr roiW roiH roiX roiY m l st).2) ∧
    st.2 ≤ (detectFold tc tr roiW roiH roiX roiY m l st).2 ∧
    (∀ s ∈ l, scaleActive tc tr roiW roiH s →
      (m s).1 ≤ (detectFold tc tr roiW roiH roiX roiY m l st).2) ∧
    ((detectFold tc tr roiW roiH roiX roiY m l st).1 = none →
      (detectFold tc tr roiW roiH roiX roiY m l st).2 = st.2 ∧ st.1 = none) ∧
    (∀ r, (detectFold tc tr roiW roiH roiX roiY m l st).1 = some r →
      (st.1 = some r ∨ ∃ s ∈ l, scaleActive tc tr roiW roiH s ∧
        r = ⟨roiX + (m s).2.1, roiY + (m s).2.2, jsRoundQ ((tc : ℚ) * s),
          jsRoundQ ((tr : ℚ) * s), (m s).1⟩)) := by
  induction l generalizing st with
  | nil =>
    refine ⟨hst, le_refl _, ?_, ?_, ?_⟩
    · intro s hs
      cases hs
    · intro h
      exact ⟨rfl, h⟩
    · intro r hr
      exact Or.inl hr
  | cons hd tl ih =>
    rw [detectFold_cons]
    by_cases hact : scaleActive tc tr roiW roiH hd
    · rw [matchAtScale_active tc tr roiW roiH m hd hact, detectStep_some]
      by_cases hlt : st.2 < (m hd).1
      · rw [if_pos hlt]
        obtain ⟨ih1, ih2, ih3, ih4, ih5⟩ :=
          ih (some ⟨roiX + (m hd).2.1, roiY + (m hd).2.2, jsRoundQ ((tc : ℚ) * hd),
              jsRoundQ ((tr : ℚ) * hd), (m hd).1⟩, (m hd).1)
            (fun b hb => by rw [← Option.some.inj hb])
        refine ⟨ih1, le_trans hlt.le ih2, ?_, ?_, ?_⟩
        · intro s hs hsact
          rcases List.mem_cons.1 hs with rfl | hs'
          · exact ih2
          · exact ih3 s hs' hsact
        · intro hnone
          obtain ⟨_, hcontra⟩ := ih4 hnone
          exact Option.noConfusion hcontra
        · intro r hr
          rcases ih5 r hr with hst' | ⟨s, hs', hsact, hreq⟩
          · exact Or.inr ⟨hd, List.mem_cons_self hd tl, hact,
              (Option.some.inj hst').symm⟩
          · exact Or.inr ⟨s, List.mem_cons_of_mem hd hs', hsact, hreq⟩
      · rw [if_neg hlt]
        obtain ⟨ih1, ih2, ih3, ih4, ih5⟩ := ih st hst
        refine ⟨ih1, ih2, ?_, ih4, ?_⟩
        · intro s hs hsact
          rcases List.mem_cons.1 hs with rfl | hs'
          · exact le_trans (not_lt.1 hlt) ih2
          · exact ih3 s hs' hsact
        · intro r hr
          rcases ih5 r hr with hst' | ⟨s, hs', hsact, hreq⟩
          · exact Or.inl hst'
          · exact Or.inr ⟨s, List.mem_cons_of_mem hd hs', hsact, hreq⟩
    · rw [matchAtScale_inactive tc tr roiW roiH m hd hact, detectStep_none]
      obtain ⟨ih1, ih2, ih3, ih4, ih5⟩ := ih st hst
      refine ⟨ih1, ih2, ?_, ih4, ?_⟩
      · intro s hs hsact
        rcases List.mem_cons.1 hs with rfl | hs'
        · exact absurd hsact hact
        · exact ih3 s hs' hsact
      · intro r hr
        rcases ih5 r hr with hst' | ⟨s, hs', hsact, hreq⟩
        · exact Or.inl hst'
        · exact Or.inr ⟨s, List.mem_cons_of_mem hd hs', hsact, hreq⟩

/-- Membership in the non-skipped scale list. -/
theorem mem_activeScales (tc tr : ℕ) (roiW roiH : ℤ) (s : ℚ) :
    s ∈ activeScales tc tr roiW roiH ↔
      s ∈ SCALES ∧ scaleActive tc tr roiW roiH s := by
  unfold activeScales
  rw [List.mem_filter]
  simp only [decide_eq_true_eq]

/-- C2: detectBadge returns null when the resized template exceeds the ROI
at every scale; otherwise it returns a non-null result exactly when the
best confidence across the non-skipped scales reaches POSSIBLE_THRESHOLD,
and the returned location is the best candidate's ROI-local location plus
the ROI offset (with the resized template's dimensions). -/
theorem C2_detectBadge (w h tc tr : ℕ) (m : MatchOracle) :
    (activeScales tc tr (detROIWidth w) (detROIWidth h) = [] →
      detectBadge w h tc tr m = none) ∧
    (∀ r, detectBadge w h tc tr m = some r →
      POSSIBLE_THRESHOLD ≤ r.confidence ∧
      (∀ s ∈ activeScales tc tr (detROIWidth w) (detROIWidth h),
        (m s).1 ≤ r.confidence) ∧
      ∃ s ∈ activeScales tc tr (detROIWidth w) (detROIWidth h),
        r.confidence = (m s).1 ∧
        r.x = detROIX w + ((m s).2.1 : ℤ) ∧ r.y = detROIX h + ((m s).2.2 : ℤ) ∧
        r.width = jsRoundQ ((tc : ℚ) * s) ∧ r.height = jsRoundQ ((tr : ℚ) * s)) ∧
    ((∃ s ∈ activeScales tc tr (detROIWidth w) (detROIWidth h),
        POSSIBLE_THRESHOLD ≤ (m s).1) →
      ∃ r, detectBadge w h tc tr m = some r) := by
  have hst0 : ∀ b, ((none, 0) : Option DetectionResult × ℚ).1 = some b →
      b.confidence = ((none, 0) : Option DetectionResult × ℚ).2 :=
    fun b hb => Option.noConfusion hb
  obtain ⟨inv1, inv2, inv3, inv4, inv5⟩ := detectFold_invariant tc tr
    (detROIWidth w) (detROIWidth h) (detROIX w) (detROIX h) m SCALES (none, 0) hst0
  refine ⟨?_, ?_, ?_⟩
  · intro hempty
    have hall : ∀ s ∈ SCALES, ¬ scaleActive tc tr (detROIWidth w) (detROIWidth h) s := by
      intro s hs hact
      have hmem := (mem_activeScales tc tr (detROIWidth w) (detROIWidth h) s).2 ⟨hs, hact⟩
      rw [hempty] at hmem
      cases hmem
    have hfold := detectFold_inactive tc tr (detROIWidth w) (detROIWidth h)
      (detROIX w) (detROIX h) m SCALES (none, 0) hall
    unfold detectBadge
    simp only
    rw [hfold]
  · intro r hr
    unfold detectBadge at hr
    simp only at hr
    rcases hb : (detectFold tc tr (detROIWidth w) (detROIWidth h) (detROIX w)
        (detROIX h) m SCALES (none, 0)).1 with _ | best
    · rw [hb] at hr
      exact Option.noConfusion hr
    · rw [hb] at hr
      have hr2 : (if POSSIBLE_THRESHOLD ≤ best.confidence then some best else none) =
          some r := hr
      by_cases hthr : POSSIBLE_THRESHOLD ≤ best.confidence
      · rw [if_pos hthr] at hr2
        have hbr : best = r := Option.some.inj hr2
        subst hbr
        have hconf := inv1 best hb
        refine ⟨hthr, ?_, ?_⟩
        · intro s hs
          obtain ⟨hsS, hsact⟩ := (mem_activeScales tc tr _ _ s).1 hs
          rw [hconf]
          exact inv3 s hsS hsact
        · rcases inv5 best hb with hcontra | ⟨s, hsS, hsact, hreq⟩
          · exact Option.noConfusion hcontra
          · refine ⟨s, (mem_activeScales tc tr _ _ s).2 ⟨hsS, hsact⟩, ?_, ?_, ?_, ?_, ?_⟩
            · rw [hreq]
            · rw [hreq]
            · rw [hreq]
            · rw [hreq]
            · rw [hreq]
      · rw [if_neg hthr] at hr2
        exact Option.noConfusion hr2
  · rintro ⟨s, hs, hconf⟩
    obtain ⟨hsS, hsact⟩ := (mem_activeScales tc tr _ _ s).1 hs
    rcases hb : (detectFold tc tr (detROIWidth w) (detROIWidth h) (detROIX w)
        (detROIX h) m SCALES (none, 0)).1 with _ | best
    · obtain ⟨hzero, _⟩ := inv4 hb
      have hle := inv3 s hsS hsact
      rw [hzero] at hle
      unfold POSSIBLE_THRESHOLD at hconf
      simp only at hle
      linarith
    · refine ⟨best, ?_⟩
      have hbest := inv1 best hb
      have hle := inv3 s hsS hsact
      have hthr : POSSIBLE_THRESHOLD ≤ best.confidence := by
        rw [hbest]
        exact le_trans hconf hle
      unfold detectBadge
      simp only
      rw [hb]
      show (if POSSIBLE_THRESHOLD ≤ best.confidence then some best else none) =
        some best
      rw [if_pos hthr]

/-- C2 witness: a 400x400 image, a 40x40 template (all scales fit the 60x60
ROI) and a score surface peaking at 9/10 yield a detection. -/
theorem C2_witness :
    ∃ r, detectBadge 400 400 40 40 (fun _ => (9/10, 3, 4)) = some r := by
  apply (C2_detectBadge 400 400 40 40 (fun _ => (9/10, 3, 4))).2.2
  refine ⟨1/2, ?_, ?_⟩
  · apply (mem_activeScales 40 40 (detROIWidth 400) (detROIWidth 400) (1/2)).2
    constructor
    · unfold SCALES
      simp
    · have hfloor1 : jsRoundQ (((40 : ℕ) : ℚ) * (1/2)) = 20 := by
        unfold jsRoundQ
        rw [Int.floor_eq_iff]
        constructor <;> norm_num
      have hroi : detROIWidth 400 = 60 := by
        unfold detROIWidth ROI_PERCENT
        rw [show ((400 : ℕ) : ℚ) * (15/100) = ((60 : ℤ) : ℚ) by norm_num]
        exact Int.floor_intCast 60
      unfold scaleActive
      rw [hfloor1, hroi]
      norm_num
  · norm_num [POSSIBLE_THRESHOLD]
